import Mathlib

/-!
Verification of the kolibri rendering core: the clipped pixel-buffer draw target
(`src/framebuf.rs`) and the per-frame dirty-state sequencing protocol
(`src/smartstate.rs`).

Shallow embedding conventions:
* `u32` quantities (sizes, state ids) are modelled as `Nat`; `i32` coordinates as `Int`.
* Rust panics (failed `assert!`, out-of-range slice index, `expect` on `None`,
  `usize` underflow) are modelled by `Option`, with `none` standing for the abort.
* Color iterators are modelled as lists: the items not yet consumed after a call are
  returned alongside the buffer, so item consumption is observable.
* Loops over coordinate ranges are modelled as iteration over mathematical integers.
-/

set_option maxHeartbeats 1000000

namespace Kolibri

/-- Pixel dimensions (the embedded-graphics `Size`; `u32` fields modelled as naturals). -/
structure Size where
  width : Nat
  height : Nat
deriving DecidableEq, Repr

/-- A point in a coordinate space (the embedded-graphics `Point`; `i32` fields modelled
as integers). -/
structure Point where
  x : Int
  y : Int
deriving DecidableEq, Repr

/-- An axis-aligned rectangle (the embedded-graphics `Rectangle`). -/
structure Rectangle where
  top_left : Point
  size : Size
deriving DecidableEq, Repr

/-- `Rectangle::zero()` from embedded-graphics. -/
def Rectangle.zero : Rectangle := ⟨⟨0, 0⟩, ⟨0, 0⟩⟩

/-- Models `Rectangle::is_zero_sized` from the embedded-graphics crate (an external
dependency of the source): true when the size equals `Size::zero()`. -/
def Rectangle.is_zero_sized (r : Rectangle) : Bool :=
  r.size.width == 0 && r.size.height == 0

/-- Models `Rectangle::intersection` from the embedded-graphics crate (an external
dependency of the source): when both rectangles are nonempty and their closed
corner ranges overlap in both axes, the result spans the componentwise max of the
top-left corners to the componentwise min of the bottom-right corners
(`bottom_right = top_left + size - 1`); otherwise `Rectangle::zero()`. -/
def Rectangle.intersection (a b : Rectangle) : Rectangle :=
  if a.size.width = 0 ∨ a.size.height = 0 ∨ b.size.width = 0 ∨ b.size.height = 0 then
    Rectangle.zero
  else
    let tlx := max a.top_left.x b.top_left.x
    let tly := max a.top_left.y b.top_left.y
    let brx := min (a.top_left.x + (a.size.width : Int) - 1)
      (b.top_left.x + (b.size.width : Int) - 1)
    let bry := min (a.top_left.y + (a.size.height : Int) - 1)
      (b.top_left.y + (b.size.height : Int) - 1)
    if tlx ≤ brx ∧ tly ≤ bry then
      ⟨⟨tlx, tly⟩, ⟨(brx - tlx + 1).toNat, (bry - tly + 1).toNat⟩⟩
    else Rectangle.zero

/-- Membership of a point in a rectangle, in parent coordinates: used to state which
backing cells a draw operation may touch. -/
def Rectangle.containsPoint (r : Rectangle) (p : Point) : Prop :=
  r.top_left.x ≤ p.x ∧ p.x < r.top_left.x + (r.size.width : Int) ∧
  r.top_left.y ≤ p.y ∧ p.y < r.top_left.y + (r.size.height : Int)

instance (r : Rectangle) (p : Point) : Decidable (r.containsPoint p) := by
  unfold Rectangle.containsPoint
  infer_instance

/-- `WidgetFramebuf<C>` from `src/framebuf.rs`: an exclusive view of externally owned
storage `buf`, with a declared `size`, an offset `position` in the parent coordinate
space, and the cached pixel count `len = width * height`. -/
structure WidgetFramebuf (C : Type) where
  buf : List C
  size : Size
  position : Point
  len : Nat
deriving DecidableEq

namespace WidgetFramebuf

variable {C : Type}

/-- `WidgetFramebuf::new`: computes `len = size.width * size.height`, asserts
`len <= buf.len()` ("buf too small for framebuffer") and constructs the view;
`none` models the `assert!` panic. -/
def new (buf : List C) (size : Size) (position : Point) : Option (WidgetFramebuf C) :=
  let len := size.width * size.height
  if len ≤ buf.length then some ⟨buf, size, position, len⟩ else none

/-- `WidgetFramebuf::try_new`: returns `Some` when `len <= buf.len()`, `None` otherwise. -/
def try_new (buf : List C) (size : Size) (position : Point) : Option (WidgetFramebuf C) :=
  let len := size.width * size.height
  if len ≤ buf.length then some ⟨buf, size, position, len⟩ else none

/-- `Dimensions::bounding_box`: the rectangle at `position` with extent `size`. -/
def bounding_box (fb : WidgetFramebuf C) : Rectangle :=
  ⟨fb.position, fb.size⟩

/-- The construction invariant: the cached `len` is `width * height` and fits in the
backing storage. Both `new` and `try_new` establish it. -/
def wf (fb : WidgetFramebuf C) : Prop :=
  fb.len = fb.size.width * fb.size.height ∧ fb.len ≤ fb.buf.length

instance (fb : WidgetFramebuf C) : Decidable fb.wf := by
  unfold wf
  infer_instance

/-- Rust slice write `buf[i] = c` at an index cast from a signed value: it succeeds
when `0 ≤ i < buf.len()` and panics (`none`) otherwise (a negative value cast to
`usize` lands far out of range). -/
def setAt (l : List C) (i : Int) (c : C) : Option (List C) :=
  if 0 ≤ i ∧ i < (l.length : Int) then some (l.set i.toNat c) else none

/-- `DrawTarget::draw_iter`: for each pixel, translate into local coordinates by
subtracting `position`, compute the linear index `y * width + x`, skip the pixel when
the index is outside `[0, len)`, and otherwise write the color at that index. -/
def draw_iter (fb : WidgetFramebuf C) : List (Point × C) → Option (WidgetFramebuf C)
  | [] => some fb
  | (p, color) :: rest =>
    let pt : Point := ⟨p.x - fb.position.x, p.y - fb.position.y⟩
    let pos : Int := pt.y * (fb.size.width : Int) + pt.x
    if pos < 0 ∨ (fb.len : Int) ≤ pos then
      draw_iter fb rest
    else
      match setAt fb.buf pos color with
      | some b => draw_iter { fb with buf := b } rest
      | none => none

/-- Inner x-loop of `fill_contiguous` over one intersected row: starting at column `x`
with `k` columns to go, take the next color and write it at
`(y - position.y) * width + (x - position.x)`; when the source is exhausted, return
immediately with the flag set (the early `return Ok(())` of the source). -/
def fillRowGo (w : Nat) (py px y : Int) :
    List C → Int → Nat → List C → Option (List C × List C × Bool)
  | buf, _, 0, colors => some (buf, colors, false)
  | buf, x, k + 1, colors =>
    match colors with
    | [] => some (buf, [], true)
    | c :: rest =>
      match setAt buf ((y - py) * (w : Int) + (x - px)) c with
      | some b => fillRowGo w py px y b (x + 1) k rest
      | none => none

/-- Row loop of `fill_contiguous`: for each intersected row, consume `ls` items
(columns left of the intersection), run the write loop across the `daW` intersected
columns starting at column `daX`, then consume `rs` items (columns right of the
intersection); an exhausted source inside the write loop ends the call. -/
def fillRowsGo (w : Nat) (py px daX : Int) (daW ls rs : Nat) :
    List C → Int → Nat → List C → Option (List C × List C)
  | buf, _, 0, colors => some (buf, colors)
  | buf, y, r + 1, colors =>
    match fillRowGo w py px y buf daX daW (colors.drop ls) with
    | none => none
    | some (b, colors2, early) =>
      if early then some (b, colors2)
      else fillRowsGo w py px daX daW ls rs b (y + 1) r (colors2.drop rs)

/-- `DrawTarget::fill_contiguous`: intersect the requested `area` with the bounding
box; if the intersection is zero sized, return without consuming anything; otherwise
consume and discard `top_skip` full rows of `area.size.width` items, then run the row
loop over the intersected rows with the left/right skip widths. The list returned
with the buffer holds the items not consumed from the source.

Modelling caveat: the source builds its loop bounds by casting the intersection's
coordinates with `as usize` (wrapping), while the rows here iterate over unbounded
integers; the two coincide whenever the intersection's top-left coordinates are
non-negative (in particular for every buffer at a non-negative position). With a
negative top-left the compiled release loop is empty where this model fills the
intersection. -/
def fill_contiguous (fb : WidgetFramebuf C) (area : Rectangle) (colors : List C) :
    Option (WidgetFramebuf C × List C) :=
  let da := area.intersection fb.bounding_box
  if da.is_zero_sized then some (fb, colors)
  else
    let top_skip := da.top_left.y - area.top_left.y
    let left_skip := da.top_left.x - area.top_left.x
    let right_skip := (area.size.width : Int) - (left_skip + (da.size.width : Int))
    match fillRowsGo fb.size.width fb.position.y fb.position.x da.top_left.x
        da.size.width left_skip.toNat right_skip.toNat fb.buf da.top_left.y
        da.size.height (colors.drop (top_skip.toNat * area.size.width)) with
    | none => none
    | some (b, rest) => some ({ fb with buf := b }, rest)

/-- Inner x-loop of `fill_solid` over one intersected row. -/
def fillSolidRowGo (w : Nat) (py px y : Int) (color : C) :
    List C → Int → Nat → Option (List C)
  | buf, _, 0 => some buf
  | buf, x, k + 1 =>
    match setAt buf ((y - py) * (w : Int) + (x - px)) color with
    | some b => fillSolidRowGo w py px y color b (x + 1) k
    | none => none

/-- Row loop of `fill_solid` over the intersected rows. -/
def fillSolidRowsGo (w : Nat) (py px daX : Int) (daW : Nat) (color : C) :
    List C → Int → Nat → Option (List C)
  | buf, _, 0 => some buf
  | buf, y, r + 1 =>
    match fillSolidRowGo w py px y color buf daX daW with
    | some b => fillSolidRowsGo w py px daX daW color b (y + 1) r
    | none => none

/-- `DrawTarget::fill_solid`: clamp the area to the bounding box, then write `color`
into every cell of the clamped rectangle, row by row (no emptiness early return: a
zero-sized intersection just runs the loops zero times). The same loop-bound cast
caveat as for `fill_contiguous` applies: the unbounded-integer rows coincide with
the compiled `as usize` loops whenever the intersection's top-left coordinates are
non-negative. -/
def fill_solid (fb : WidgetFramebuf C) (area : Rectangle) (color : C) :
    Option (WidgetFramebuf C) :=
  let da := area.intersection fb.bounding_box
  match fillSolidRowsGo fb.size.width fb.position.y fb.position.x da.top_left.x
      da.size.width color fb.buf da.top_left.y da.size.height with
  | some b => some { fb with buf := b }
  | none => none

/-- `DrawTarget::clear`: `self.buf[0..width*height].fill(color)`; the slicing panics
(`none`) when `width * height > buf.len()`. -/
def clear (fb : WidgetFramebuf C) (color : C) : Option (WidgetFramebuf C) :=
  let n := fb.size.width * fb.size.height
  if n ≤ fb.buf.length then
    some { fb with buf := List.replicate n color ++ fb.buf.drop n }
  else none

/-- The parent-space point stored at linear index `j` of the backing storage:
row `j / width`, column `j % width`, offset by `position`. -/
def pointOfIdx (fb : WidgetFramebuf C) (j : Nat) : Point :=
  ⟨fb.position.x + ((j % fb.size.width : Nat) : Int),
   fb.position.y + ((j / fb.size.width : Nat) : Int)⟩

end WidgetFramebuf

/-- The row-major position of point `p` in the color sequence of a
`fill_contiguous` call for the unclipped rectangle `area`. -/
def seqIndex (area : Rectangle) (p : Point) : Int :=
  (p.y - area.top_left.y) * (area.size.width : Int) + (p.x - area.top_left.x)

/-- The number of items `fill_contiguous` consumes from an unbounded source, as the
code computes it: zero when the intersection is zero sized, and otherwise
`(top_skip + intersection.height) * area.width` — rows above the intersection and
every column (left skip, interior, right skip) of each intersected row; rows below
the intersection are not drained. -/
def consumedSpec {C : Type} (fb : WidgetFramebuf C) (area : Rectangle) : Nat :=
  let da := area.intersection fb.bounding_box
  if da.is_zero_sized then 0
  else ((da.top_left.y - area.top_left.y).toNat + da.size.height) * area.size.width

/-- `Smartstate(u32, bool)` from `src/smartstate.rs`: field `id` is `.0`,
field `valid` is `.1`. -/
structure Smartstate where
  id : Nat
  valid : Bool
deriving DecidableEq, Repr

namespace Smartstate

/-- `Smartstate::empty()`: an invalid state that always triggers a redraw. -/
def empty : Smartstate := ⟨0, false⟩

/-- `Smartstate::state(id)`: a valid state tagged with `id`. -/
def state (s : Nat) : Smartstate := ⟨s, true⟩

/-- `Smartstate::set_state`: overwrite the id and mark the cell valid. -/
def set_state (_c : Smartstate) (s : Nat) : Smartstate := ⟨s, true⟩

/-- `Smartstate::is_empty`. -/
def is_empty (c : Smartstate) : Bool := !c.valid

/-- `Smartstate::is_state`. -/
def is_state (c : Smartstate) (s : Nat) : Bool := c.valid && c.id == s

/-- `Smartstate::force_redraw`: invalidate the cell, keeping its id. -/
def force_redraw (c : Smartstate) : Smartstate := ⟨c.id, false⟩

/-- `impl PartialEq for Smartstate`: `self.0 == other.0 && self.1 && other.1`. -/
def eq (a b : Smartstate) : Bool := a.id == b.id && a.valid && b.valid

end Smartstate

/-- `SmartstateProvider<N>` from `src/smartstate.rs`: a fixed array of smartstates
(`states.length` plays the role of the const parameter `N`) and a cursor `pos`. -/
structure SmartstateProvider where
  states : List Smartstate
  pos : Nat
deriving DecidableEq, Repr

namespace SmartstateProvider

/-- `SmartstateProvider::<N>::new()`: `N` empty smartstates, cursor at 0. -/
def new (N : Nat) : SmartstateProvider := ⟨List.replicate N Smartstate.empty, 0⟩

/-- `restart_counter()`: reset the cursor to 0 at the start of a frame. -/
def restart_counter (p : SmartstateProvider) : SmartstateProvider := { p with pos := 0 }

/-- `size()`: the capacity `N`. -/
def size (p : SmartstateProvider) : Nat := p.states.length

/-- `nxt()`: return the cell at the cursor and advance the cursor; `none` models the
"Smartstate buffer too small" panic when `pos >= N`. -/
def nxt (p : SmartstateProvider) : Option (Smartstate × SmartstateProvider) :=
  match p.states[p.pos]? with
  | some s => some (s, { p with pos := p.pos + 1 })
  | none => none

/-- `current()`: `states.get_mut(pos - 1)`; at `pos = 0` the usize subtraction
underflows (panic in debug; in release it wraps far out of range and the `expect`
panics), so the access aborts either way. -/
def current (p : SmartstateProvider) : Option Smartstate :=
  if p.pos = 0 then none else p.states[p.pos - 1]?

/-- `prev()`: `states.get_mut(pos - 2)`, aborting when fewer than two `nxt` calls
have been made. -/
def prev (p : SmartstateProvider) : Option Smartstate :=
  if p.pos < 2 then none else p.states[p.pos - 2]?

/-- `peek()`: the cell at the cursor, without advancing. -/
def peek (p : SmartstateProvider) : Option Smartstate := p.states[p.pos]?

/-- `skip(n)`: `self.pos += n` — advances the cursor unconditionally, with no
bounds check. -/
def skip (p : SmartstateProvider) (n : Nat) : SmartstateProvider :=
  { p with pos := p.pos + n }

/-- `skip_one()`: `skip(1)`. -/
def skip_one (p : SmartstateProvider) : SmartstateProvider := p.skip 1

/-- Iterated `nxt`, discarding the returned cells; `none` as soon as one call panics. -/
def nxtIter : SmartstateProvider → Nat → Option SmartstateProvider
  | p, 0 => some p
  | p, k + 1 =>
    match p.nxt with
    | some (_, q) => nxtIter q k
    | none => none

end SmartstateProvider

/-- Concrete 3-by-3 boolean buffer at the origin (9 cells, all off), used by the
witnesses below. -/
def fbW3 : WidgetFramebuf Bool := ⟨List.replicate 9 false, ⟨3, 3⟩, ⟨0, 0⟩, 9⟩

/-- Concrete requested rectangle overlapping `fbW3` only partially. -/
def areaW : Rectangle := ⟨⟨1, 1⟩, ⟨4, 4⟩⟩

end Kolibri

namespace Kolibri

open WidgetFramebuf SmartstateProvider

theorem nxtIter_ok : ∀ (k : Nat) (p : SmartstateProvider),
    p.pos + k ≤ p.states.length →
    SmartstateProvider.nxtIter p k = some ⟨p.states, p.pos + k⟩ := by
  intro k
  induction k with
  | zero => intro p h; simp [SmartstateProvider.nxtIter]
  | succ k ih =>
    intro p h
    have hlt : p.pos < p.states.length := by omega
    simp only [SmartstateProvider.nxtIter, SmartstateProvider.nxt,
      List.getElem?_eq_getElem hlt]
    rw [ih ⟨p.states, p.pos + 1⟩ (by simpa using by omega)]
    simp
    omega

theorem nxtIter_none : ∀ (k : Nat) (p : SmartstateProvider),
    p.pos ≤ p.states.length → p.states.length < p.pos + k →
    SmartstateProvider.nxtIter p k = none := by
  intro k
  induction k with
  | zero => intro p h1 h2; omega
  | succ k ih =>
    intro p h1 h2
    by_cases hlt : p.pos < p.states.length
    · simp only [SmartstateProvider.nxtIter, SmartstateProvider.nxt,
        List.getElem?_eq_getElem hlt]
      exact ih ⟨p.states, p.pos + 1⟩ (by simpa using by omega) (by simpa using by omega)
    · have hge : p.states.length ≤ p.pos := by omega
      simp only [SmartstateProvider.nxtIter, SmartstateProvider.nxt,
        List.getElem?_eq_none hge]

/-- Claim C5: under the redraw-decision equality on state cells, `state a == state b`
holds exactly when `a = b`; a cell with `valid = false` (in particular `empty`, or any
cell after `force_redraw`) is equal to nothing, including itself, so
`empty != empty`; and `force_redraw` clears only the valid flag, keeping the id. -/
theorem C5_smartstate_equality :
    ∀ (a b : Nat) (s c : Smartstate),
      (Smartstate.eq (Smartstate.state a) (Smartstate.state b) = true ↔ a = b) ∧
      (s.valid = false → Smartstate.eq s c = false ∧ Smartstate.eq c s = false) ∧
      Smartstate.eq Smartstate.empty Smartstate.empty = false ∧
      (Smartstate.force_redraw s).id = s.id ∧
      (Smartstate.force_redraw s).valid = false ∧
      Smartstate.eq (Smartstate.force_redraw s) c = false ∧
      Smartstate.eq c (Smartstate.force_redraw s) = false := by
  intro a b s c
  refine ⟨?_, ?_, ?_, rfl, rfl, ?_, ?_⟩
  · simp [Smartstate.eq, Smartstate.state]
  · intro hv
    simp [Smartstate.eq, hv]
  · simp [Smartstate.eq, Smartstate.empty]
  · simp [Smartstate.eq, Smartstate.force_redraw]
  · simp [Smartstate.eq, Smartstate.force_redraw]

theorem C5_smartstate_equality_witness :
    (Smartstate.eq (Smartstate.state 1) (Smartstate.state 1) = true ↔ (1 : Nat) = 1) ∧
    (Smartstate.empty.valid = false →
      Smartstate.eq Smartstate.empty (Smartstate.state 5) = false ∧
      Smartstate.eq (Smartstate.state 5) Smartstate.empty = false) ∧
    Smartstate.eq Smartstate.empty Smartstate.empty = false ∧
    (Smartstate.force_redraw Smartstate.empty).id = Smartstate.empty.id ∧
    (Smartstate.force_redraw Smartstate.empty).valid = false ∧
    Smartstate.eq (Smartstate.force_redraw Smartstate.empty) (Smartstate.state 5) = false ∧
    Smartstate.eq (Smartstate.state 5) (Smartstate.force_redraw Smartstate.empty) = false :=
  C5_smartstate_equality 1 1 Smartstate.empty (Smartstate.state 5)

/-- Claim C6: with capacity `N` and the cursor at 0, `nxt` succeeds exactly `N` times
and the `(N+1)`-th call aborts; `current` before any `nxt` this frame aborts; `prev`
before at least two `nxt` calls aborts. No misuse case yields a substitute cell. -/
theorem C6_sequencer_misuse :
    ∀ (N : Nat) (p : SmartstateProvider),
      (SmartstateProvider.nxtIter (SmartstateProvider.new N) N).isSome = true ∧
      SmartstateProvider.nxtIter (SmartstateProvider.new N) (N + 1) = none ∧
      p.restart_counter.current = none ∧
      p.restart_counter.prev = none ∧
      (∀ s q, p.restart_counter.nxt = some (s, q) → q.prev = none) := by
  intro N p
  refine ⟨?_, ?_, ?_, ?_, ?_⟩
  · rw [nxtIter_ok N (SmartstateProvider.new N)
      (by simp [SmartstateProvider.new])]
    rfl
  · exact nxtIter_none (N + 1) (SmartstateProvider.new N)
      (by simp [SmartstateProvider.new]) (by simp [SmartstateProvider.new])
  · rfl
  · rfl
  · intro s q hq
    simp only [SmartstateProvider.nxt, SmartstateProvider.restart_counter] at hq
    cases h0 : p.states[(0 : Nat)]? with
    | none => rw [h0] at hq; exact absurd hq (by simp)
    | some a =>
      rw [h0] at hq
      simp only [Option.some_inj, Prod.mk.injEq] at hq
      rw [← hq.2]
      rfl

theorem C6_sequencer_misuse_witness :
    (SmartstateProvider.nxtIter (SmartstateProvider.new 2) 2).isSome = true ∧
    SmartstateProvider.nxtIter (SmartstateProvider.new 2) 3 = none ∧
    (SmartstateProvider.new 2).restart_counter.current = none ∧
    (SmartstateProvider.new 2).restart_counter.prev = none ∧
    ((SmartstateProvider.new 2).restart_counter.nxt
        = some (Smartstate.empty, ⟨List.replicate 2 Smartstate.empty, 1⟩) →
      SmartstateProvider.prev ⟨List.replicate 2 Smartstate.empty, 1⟩ = none) := by
  have h := C6_sequencer_misuse 2 (SmartstateProvider.new 2)
  exact ⟨h.1, h.2.1, h.2.2.1, h.2.2.2.1, h.2.2.2.2 _ _⟩

/-- Claim C7 (counterexample): the claim says no operation completes normally leaving
the cursor strictly greater than `N`. But `skip` has no bounds check: on a provider of
capacity 2, `restart_counter` followed by `skip 3` completes normally (it is total and
aborts nothing) and leaves the cursor at 3 > 2. -/
theorem C7_counterexample :
    ((SmartstateProvider.new 2).restart_counter.skip 3).pos = 3 ∧
    ((SmartstateProvider.new 2).restart_counter.skip 3).size = 2 ∧
    ¬ ((SmartstateProvider.new 2).restart_counter.skip 3).pos ≤
      ((SmartstateProvider.new 2).restart_counter.skip 3).size := by
  decide

/-- Claim C7 (amended): after `restart_counter` the cursor is 0; `nxt` keeps the
cursor within `[0, N]` — it aborts (rather than advancing) when the cursor has
reached `N`, and on success moves the cursor from a value `< N` to one `≤ N`; but
`skip n` advances the cursor by `n` unconditionally, with no bounds check, so the
cursor can silently exceed `N`. -/
theorem C7_amended_cursor :
    ∀ (p : SmartstateProvider) (n : Nat) (s : Smartstate) (q : SmartstateProvider),
      p.restart_counter.pos = 0 ∧
      (p.nxt = some (s, q) → p.pos < p.size ∧ q.pos = p.pos + 1 ∧ q.pos ≤ p.size) ∧
      (p.skip n).pos = p.pos + n := by
  intro p n s q
  refine ⟨rfl, ?_, rfl⟩
  intro hq
  by_cases hlt : p.pos < p.states.length
  · simp only [SmartstateProvider.nxt, List.getElem?_eq_getElem hlt,
      Option.some_inj, Prod.mk.injEq] at hq
    rw [← hq.2]
    exact ⟨hlt, rfl, by exact hlt⟩
  · have hge : p.states.length ≤ p.pos := by omega
    simp [SmartstateProvider.nxt, List.getElem?_eq_none hge] at hq

theorem C7_amended_cursor_witness :
    (SmartstateProvider.new 2).restart_counter.pos = 0 ∧
    ((SmartstateProvider.new 2).nxt
        = some (Smartstate.empty, ⟨List.replicate 2 Smartstate.empty, 1⟩) →
      (SmartstateProvider.new 2).pos < (SmartstateProvider.new 2).size ∧
      (⟨List.replicate 2 Smartstate.empty, 1⟩ : SmartstateProvider).pos
        = (SmartstateProvider.new 2).pos + 1 ∧
      (⟨List.replicate 2 Smartstate.empty, 1⟩ : SmartstateProvider).pos
        ≤ (SmartstateProvider.new 2).size) ∧
    ((SmartstateProvider.new 2).skip 3).pos = (SmartstateProvider.new 2).pos + 3 :=
  C7_amended_cursor (SmartstateProvider.new 2) 3 Smartstate.empty
    ⟨List.replicate 2 Smartstate.empty, 1⟩

/-- Claim C8: construction succeeds iff `size.width * size.height ≤ storage.length`:
`try_new` returns a buffer exactly under that condition and `None` otherwise, and
`new` returns a buffer exactly under that condition and aborts otherwise. -/
theorem C8_construction (C : Type) (buf : List C) (size : Size) (position : Point) :
    ((∃ fb, WidgetFramebuf.try_new buf size position = some fb) ↔
      size.width * size.height ≤ buf.length) ∧
    (WidgetFramebuf.try_new buf size position = none ↔
      buf.length < size.width * size.height) ∧
    ((∃ fb, WidgetFramebuf.new buf size position = some fb) ↔
      size.width * size.height ≤ buf.length) ∧
    (WidgetFramebuf.new buf size position = none ↔
      buf.length < size.width * size.height) := by
  unfold WidgetFramebuf.try_new WidgetFramebuf.new
  by_cases h : size.width * size.height ≤ buf.length
  · simp [h]
    try omega
  · simp [h]
    try omega

/-- Claim C4: an out-of-bounds pixel is not always discarded by `draw_iter`: on a
3-by-3 buffer at the origin, the pixel at parent point `(3, 0)` — outside the
bounding box — passes the linear-index check (`0*3 + 3 = 3 ∈ [0, 9)`) and its color
is written to backing index 3, which is the cell at local point `(0, 1)`: a
different row than the pixel's. Rejection tests only the linear index, so x
coordinates outside `[0, width)` wrap into adjacent rows. -/
theorem C4_draw_iter_row_wrap :
    (⟨List.replicate 9 false, ⟨3, 3⟩, ⟨0, 0⟩, 9⟩ : WidgetFramebuf Bool).wf ∧
    ¬ (WidgetFramebuf.bounding_box
        (⟨List.replicate 9 false, ⟨3, 3⟩, ⟨0, 0⟩, 9⟩ : WidgetFramebuf Bool)).containsPoint
        ⟨3, 0⟩ ∧
    WidgetFramebuf.draw_iter
        (⟨List.replicate 9 false, ⟨3, 3⟩, ⟨0, 0⟩, 9⟩ : WidgetFramebuf Bool)
        [(⟨3, 0⟩, true)]
      = some ⟨[false, false, false, true, false, false, false, false, false],
          ⟨3, 3⟩, ⟨0, 0⟩, 9⟩ ∧
    WidgetFramebuf.pointOfIdx
        (⟨List.replicate 9 false, ⟨3, 3⟩, ⟨0, 0⟩, 9⟩ : WidgetFramebuf Bool) 3
      = ⟨0, 1⟩ ∧
    (⟨0, 1⟩ : Point).y ≠ (⟨3, 0⟩ : Point).y := by
  decide

/-- Claim C10: for every constructed buffer, `clear` succeeds, overwrites exactly the
first `width * height` cells of the backing storage with the color, leaves every cell
beyond that index unchanged, and is independent of the buffer's `position`. -/
theorem C10_clear_exact (C : Type) (fb : WidgetFramebuf C) (color : C) (h : fb.wf) :
    ∃ fb2, fb.clear color = some fb2 ∧
      fb2.buf.length = fb.buf.length ∧
      (∀ j, j < fb.size.width * fb.size.height → fb2.buf[j]? = some color) ∧
      (∀ j, fb.size.width * fb.size.height ≤ j → fb2.buf[j]? = fb.buf[j]?) ∧
      (∀ q : Point, WidgetFramebuf.clear { fb with position := q } color
          = some { fb2 with position := q }) := by
  obtain ⟨h1, h2⟩ := h
  have hle : fb.size.width * fb.size.height ≤ fb.buf.length := h1 ▸ h2
  refine ⟨⟨List.replicate (fb.size.width * fb.size.height) color
      ++ fb.buf.drop (fb.size.width * fb.size.height), fb.size, fb.position, fb.len⟩,
    ?_, ?_, ?_, ?_, ?_⟩
  · unfold WidgetFramebuf.clear
    rw [if_pos hle]
  · simp
    omega
  · intro j hj
    show (List.replicate (fb.size.width * fb.size.height) color
      ++ fb.buf.drop (fb.size.width * fb.size.height))[j]? = some color
    rw [List.getElem?_append]
    simp [hj]
  · intro j hj
    rw [List.getElem?_append_right (by simpa using hj), List.length_replicate,
      List.getElem?_drop]
    congr 1
    omega
  · intro q
    unfold WidgetFramebuf.clear
    rw [if_pos (by simpa using hle)]

theorem C10_clear_exact_witness :
    (⟨[false, false, false], ⟨2, 1⟩, ⟨5, -3⟩, 2⟩ : WidgetFramebuf Bool).wf ∧
    ∃ fb2, (⟨[false, false, false], ⟨2, 1⟩, ⟨5, -3⟩, 2⟩ : WidgetFramebuf Bool).clear true
        = some fb2 ∧
      fb2.buf.length = 3 ∧
      (∀ j, j < 2 → fb2.buf[j]? = some true) ∧
      (∀ j, 2 ≤ j → fb2.buf[j]? = [false, false, false][j]?) ∧
      (∀ q : Point, WidgetFramebuf.clear
          (⟨[false, false, false], ⟨2, 1⟩, q, 2⟩ : WidgetFramebuf Bool) true
          = some { fb2 with position := q }) := by
  refine ⟨by decide, ?_⟩
  obtain ⟨fb2, e1, e2, e3, e4, e5⟩ :=
    C10_clear_exact Bool ⟨[false, false, false], ⟨2, 1⟩, ⟨5, -3⟩, 2⟩ true (by decide)
  exact ⟨fb2, e1, e2, e3, e4, e5⟩

end Kolibri

namespace Kolibri

/-- Characterization of `Rectangle.intersection`: it is either the zero rectangle or a
rectangle of positive extent contained (corner-wise) in both arguments. -/
theorem inter_spec (a b : Rectangle) :
    a.intersection b = Rectangle.zero ∨
    (1 ≤ (a.intersection b).size.width ∧ 1 ≤ (a.intersection b).size.height ∧
      a.top_left.x ≤ (a.intersection b).top_left.x ∧
      b.top_left.x ≤ (a.intersection b).top_left.x ∧
      (a.intersection b).top_left.x + ((a.intersection b).size.width : Int) ≤
        a.top_left.x + (a.size.width : Int) ∧
      (a.intersection b).top_left.x + ((a.intersection b).size.width : Int) ≤
        b.top_left.x + (b.size.width : Int) ∧
      a.top_left.y ≤ (a.intersection b).top_left.y ∧
      b.top_left.y ≤ (a.intersection b).top_left.y ∧
      (a.intersection b).top_left.y + ((a.intersection b).size.height : Int) ≤
        a.top_left.y + (a.size.height : Int) ∧
      (a.intersection b).top_left.y + ((a.intersection b).size.height : Int) ≤
        b.top_left.y + (b.size.height : Int)) := by
  simp only [Rectangle.intersection]
  set tlx := max a.top_left.x b.top_left.x with htlx
  set tly := max a.top_left.y b.top_left.y with htly
  set brx := min (a.top_left.x + (a.size.width : Int) - 1)
    (b.top_left.x + (b.size.width : Int) - 1) with hbrx
  set bry := min (a.top_left.y + (a.size.height : Int) - 1)
    (b.top_left.y + (b.size.height : Int) - 1) with hbry
  have hx1 : a.top_left.x ≤ tlx := le_max_left _ _
  have hx2 : b.top_left.x ≤ tlx := le_max_right _ _
  have hx3 : brx ≤ a.top_left.x + (a.size.width : Int) - 1 := min_le_left _ _
  have hx4 : brx ≤ b.top_left.x + (b.size.width : Int) - 1 := min_le_right _ _
  have hy1 : a.top_left.y ≤ tly := le_max_left _ _
  have hy2 : b.top_left.y ≤ tly := le_max_right _ _
  have hy3 : bry ≤ a.top_left.y + (a.size.height : Int) - 1 := min_le_left _ _
  have hy4 : bry ≤ b.top_left.y + (b.size.height : Int) - 1 := min_le_right _ _
  split_ifs with h1 h2
  · exact Or.inl rfl
  · right
    dsimp only
    obtain ⟨hox, hoy⟩ := h2
    refine ⟨?_, ?_, ?_, ?_, ?_, ?_, ?_, ?_, ?_, ?_⟩ <;> omega
  · exact Or.inl rfl

end Kolibri

namespace Kolibri.WidgetFramebuf

/-- The inner x-loop of `fill_contiguous` succeeds when the row lies inside the
buffer; it consumes exactly `min k (colors.length)` items, reports early exhaustion,
and changes no cell whose position is outside the written span (a cell inside the
span is also untouched when the source ran out before reaching it). -/
theorem fillRowGo_spec {C : Type} (w : Nat) (py px y : Int) (H : Nat)
    (hy0 : 0 ≤ y - py) (hyH : y - py < (H : Int)) :
    ∀ (k : Nat) (x : Int) (buf colors : List C),
      0 ≤ x - px → (x - px) + k ≤ (w : Int) → w * H ≤ buf.length →
      ∃ b, fillRowGo w py px y buf x k colors
          = some (b, colors.drop k, decide (colors.length < k)) ∧
        b.length = buf.length ∧
        ∀ j : Nat, (∀ t : Nat, t < k → (j : Int) = (y - py) * w + (x - px) + t →
            colors.length ≤ t) →
          b[j]? = buf[j]? := by
  intro k
  induction k with
  | zero =>
    intro x buf colors hx0 hxk hlen
    refine ⟨buf, ?_, rfl, fun j _ => rfl⟩
    simp [fillRowGo]
  | succ k ih =>
    intro x buf colors hx0 hxk hlen
    cases colors with
    | nil =>
      refine ⟨buf, ?_, rfl, fun j _ => rfl⟩
      simp [fillRowGo]
    | cons c rest =>
      have hw0 : (0 : Int) ≤ (w : Int) := Int.ofNat_nonneg w
      have hxk1 : x - px + (k : Int) + 1 ≤ (w : Int) := by push_cast at hxk; linarith
      have hA0 : 0 ≤ (y - py) * (w : Int) := mul_nonneg hy0 hw0
      have hAw : (y - py) * (w : Int) + w ≤ (H : Int) * w := by
        have h1 : (y - py + 1) * (w : Int) ≤ (H : Int) * w :=
          mul_le_mul_of_nonneg_right (by omega) hw0
        have h2 : (y - py + 1) * (w : Int) = (y - py) * w + w := by ring
        linarith
    -- the write index is inside the buffer
      have hcomm : (H : Int) * w = ((w * H : Nat) : Int) := by push_cast; ring
      have hlen2 : ((w * H : Nat) : Int) ≤ (buf.length : Int) := by exact_mod_cast hlen
      have hpos0 : 0 ≤ (y - py) * (w : Int) + (x - px) := by linarith
      have hposlt : (y - py) * (w : Int) + (x - px) < (buf.length : Int) := by
        have hk0 : (0 : Int) ≤ (k : Int) := Int.ofNat_nonneg k
        linarith
      have hset : setAt buf ((y - py) * (w : Int) + (x - px)) c
          = some (buf.set ((y - py) * (w : Int) + (x - px)).toNat c) := by
        unfold setAt
        rw [if_pos ⟨hpos0, hposlt⟩]
      obtain ⟨b, hb, hblen, hbframe⟩ := ih (x + 1)
        (buf.set ((y - py) * (w : Int) + (x - px)).toNat c) rest
        (by omega) (by omega) (by rw [List.length_set]; exact hlen)
      refine ⟨b, ?_, ?_, ?_⟩
      · simp only [fillRowGo, hset]
        rw [hb]
        have hflag : decide (rest.length < k) = decide ((c :: rest).length < k + 1) := by
          rw [decide_eq_decide]
          simp
        rw [hflag]
        rfl
      · rw [hblen, List.length_set]
      · intro j hj
        have hstep : b[j]? = (buf.set ((y - py) * (w : Int) + (x - px)).toNat c)[j]? := by
          apply hbframe
          intro t ht hteq
          have := hj (t + 1) (by omega) (by push_cast at hteq ⊢; linarith)
          simp only [List.length_cons] at this
          omega
        have hne : ((y - py) * (w : Int) + (x - px)).toNat ≠ j := by
          intro he
          have hjeq : (j : Int) = (y - py) * (w : Int) + (x - px) + ((0 : Nat) : Int) := by
            rw [← he, Int.toNat_of_nonneg hpos0]
            simp
          have := hj 0 (by omega) hjeq
          simp at this
        rw [hstep, List.getElem?_set_ne hne]

end Kolibri.WidgetFramebuf

namespace Kolibri.WidgetFramebuf

/-- The row loop of `fill_contiguous` succeeds whenever the intersected rows lie
inside the buffer; it consumes `rows * (ls + daW + rs)` items (truncated at the
source's length) and leaves untouched every cell that is outside the written spans
or whose sequence position is at or past the source's end. -/
theorem fillRowsGo_spec {C : Type} (w : Nat) (py px daX : Int) (daW ls rs : Nat)
    (H : Nat) (hx0 : 0 ≤ daX - px) (hxw : (daX - px) + daW ≤ (w : Int)) :
    ∀ (rows : Nat) (y : Int) (buf colors : List C),
      0 ≤ y - py → (y - py) + rows ≤ (H : Int) → w * H ≤ buf.length →
      ∃ b, fillRowsGo w py px daX daW ls rs buf y rows colors
          = some (b, colors.drop (rows * (ls + daW + rs))) ∧
        b.length = buf.length ∧
        ∀ j : Nat,
          (∀ r : Nat, r < rows → ∀ t : Nat, t < daW →
            (j : Int) = ((y - py) + r) * w + (daX - px) + t →
            colors.length ≤ r * (ls + daW + rs) + ls + t) →
          b[j]? = buf[j]? := by
  intro rows
  induction rows with
  | zero =>
    intro y buf colors hy0 hyr hlen
    refine ⟨buf, ?_, rfl, fun j _ => rfl⟩
    simp [fillRowsGo]
  | succ n ih =>
    intro y buf colors hy0 hyr hlen
    have hyH : y - py < (H : Int) := by
      have : ((n : Int) + 1) = ((n + 1 : Nat) : Int) := by push_cast; ring
      omega
    obtain ⟨b1, hb1, hb1len, hb1frame⟩ :=
      fillRowGo_spec w py px y H hy0 hyH daW daX buf (colors.drop ls) hx0 hxw hlen
    by_cases hearly : (colors.drop ls).length < daW
    · refine ⟨b1, ?_, hb1len, ?_⟩
      · simp only [fillRowsGo, hb1, hearly, decide_True, if_true]
        have hlen2 : colors.length ≤ ls + daW := by
          rw [List.length_drop] at hearly; omega
        have hnil1 : List.drop (ls + daW) colors = ([] : List C) :=
          List.drop_eq_nil_of_le (by omega)
        have hnil2 : List.drop ((n + 1) * (ls + daW + rs)) colors = ([] : List C) := by
          apply List.drop_eq_nil_of_le
          calc colors.length ≤ ls + daW := hlen2
            _ ≤ ls + daW + rs := by omega
            _ ≤ (n + 1) * (ls + daW + rs) := Nat.le_mul_of_pos_left _ (by omega)
        rw [List.drop_drop, hnil1, hnil2]
      · intro j hj
        apply hb1frame
        intro t ht hteq
        have := hj 0 (by omega) t ht (by rw [hteq]; push_cast; ring)
        rw [List.length_drop]
        omega
    · obtain ⟨b, hb, hblen, hbframe⟩ := ih (y + 1) b1
        (((colors.drop ls).drop daW).drop rs)
        (by omega)
        (by push_cast at hyr ⊢; linarith)
        (by rw [hb1len]; exact hlen)
      refine ⟨b, ?_, by rw [hblen, hb1len], ?_⟩
      · simp only [fillRowsGo, hb1, hearly, decide_False, Bool.false_eq_true, if_false]
        rw [hb, List.drop_drop, List.drop_drop, List.drop_drop]
        congr 2
        ring_nf
      · intro j hj
        have h2 : b[j]? = b1[j]? := by
          apply hbframe
          intro r hr t ht hteq
          have hmain := hj (r + 1) (by omega) t ht
            (by rw [hteq]; push_cast; ring)
          simp only [List.length_drop]
          have hexp : (r + 1) * (ls + daW + rs)
              = r * (ls + daW + rs) + (ls + daW + rs) := by ring
          rw [hexp] at hmain
          generalize r * (ls + daW + rs) = RP at hmain ⊢
          omega
        have h1 : b1[j]? = buf[j]? := by
          apply hb1frame
          intro t ht hteq
          have hmain := hj 0 (by omega) t ht (by rw [hteq]; push_cast; ring)
          simp only [Nat.zero_mul, Nat.zero_add] at hmain
          rw [List.length_drop]
          omega
        rw [h2, h1]

end Kolibri.WidgetFramebuf

namespace Kolibri.WidgetFramebuf

/-- Decomposition of a backing index written by the fill loops: an index of the form
`(dy + r) * w + dx + t` with in-range offsets lies below `w * h` and has column
`dx + t` and row `dy + r`. -/
theorem idx_decomp (w h : Nat) (dy dx : Int) (r t : Nat) (j : Nat)
    (hdy0 : 0 ≤ dy) (hdx0 : 0 ≤ dx) (hdyr : dy + r < (h : Int))
    (hdxt : dx + t < (w : Int))
    (hj : (j : Int) = (dy + r) * w + dx + t) :
    j < w * h ∧ j % w = dx.toNat + t ∧ j / w = dy.toNat + r := by
  have hw0 : 0 < w := by omega
  have hdyN : (dy.toNat : Int) = dy := Int.toNat_of_nonneg hdy0
  have hdxN : (dx.toNat : Int) = dx := Int.toNat_of_nonneg hdx0
  have hjN : j = (dy.toNat + r) * w + (dx.toNat + t) := by
    have hcast : (j : Int) = (((dy.toNat + r) * w + (dx.toNat + t) : Nat) : Int) := by
      push_cast
      rw [hdyN, hdxN]
      linarith [hj]
    exact_mod_cast hcast
  have hlt : dx.toNat + t < w := by omega
  refine ⟨?_, ?_, ?_⟩
  · have h1 : dy.toNat + r + 1 ≤ h := by omega
    calc j = (dy.toNat + r) * w + (dx.toNat + t) := hjN
      _ < (dy.toNat + r) * w + w := by omega
      _ = (dy.toNat + r + 1) * w := by ring
      _ ≤ h * w := Nat.mul_le_mul_right w h1
      _ = w * h := Nat.mul_comm h w
  · rw [hjN, Nat.add_comm ((dy.toNat + r) * w) (dx.toNat + t),
      Nat.add_mul_mod_self_right]
    exact Nat.mod_eq_of_lt hlt
  · rw [hjN, Nat.add_comm ((dy.toNat + r) * w) (dx.toNat + t),
      Nat.add_mul_div_right _ _ hw0, Nat.div_eq_of_lt hlt]
    omega

end Kolibri.WidgetFramebuf

namespace Kolibri

/-- Master theorem for `fill_contiguous` on a buffer whose pixel count fits its
storage: the call always succeeds; it consumes exactly `consumedSpec fb area` items
(truncated at the source's length, observable through the returned remainder); and
it leaves unchanged every backing cell except those inside the intersection whose
row-major sequence position lies before the source's end. -/
theorem fill_contiguous_spec {C : Type} (fb : WidgetFramebuf C) (area : Rectangle)
    (colors : List C) (hwf : fb.size.width * fb.size.height ≤ fb.buf.length) :
    ∃ fb2, fb.fill_contiguous area colors
        = some (fb2, colors.drop (consumedSpec fb area)) ∧
      fb2.size = fb.size ∧ fb2.position = fb.position ∧ fb2.len = fb.len ∧
      fb2.buf.length = fb.buf.length ∧
      ∀ j : Nat,
        ¬ (j < fb.size.width * fb.size.height ∧
            (area.intersection fb.bounding_box).containsPoint (fb.pointOfIdx j) ∧
            seqIndex area (fb.pointOfIdx j) < (colors.length : Int)) →
        fb2.buf[j]? = fb.buf[j]? := by
  rcases inter_spec area fb.bounding_box with hz | hpos
  · have hzs : (area.intersection fb.bounding_box).is_zero_sized = true := by
      rw [hz]; rfl
    refine ⟨fb, ?_, rfl, rfl, rfl, rfl, fun j _ => rfl⟩
    simp only [WidgetFramebuf.fill_contiguous, hzs, if_true, consumedSpec]
    simp
  · simp only [WidgetFramebuf.bounding_box] at hpos
    obtain ⟨hw1, hh1, hax, hbx, haxw, hbxw, hay, hby, hayh, hbyh⟩ := hpos
    have hzs : (area.intersection fb.bounding_box).is_zero_sized = false := by
      unfold Rectangle.is_zero_sized
      have hne : (area.intersection fb.bounding_box).size.width ≠ 0 := by
        simp only [WidgetFramebuf.bounding_box] at *
        omega
      simp [hne]
    simp only [WidgetFramebuf.bounding_box] at hzs ⊢
    obtain ⟨b, hbeq, hblen, hbframe⟩ :=
      WidgetFramebuf.fillRowsGo_spec fb.size.width fb.position.y fb.position.x
        (Rectangle.intersection area ⟨fb.position, fb.size⟩).top_left.x
        (Rectangle.intersection area ⟨fb.position, fb.size⟩).size.width
        ((Rectangle.intersection area ⟨fb.position, fb.size⟩).top_left.x
          - area.top_left.x).toNat
        ((area.size.width : Int)
          - (((Rectangle.intersection area ⟨fb.position, fb.size⟩).top_left.x
              - area.top_left.x)
            + ((Rectangle.intersection area ⟨fb.position, fb.size⟩).size.width
              : Int))).toNat
        fb.size.height (by omega) (by omega)
        (Rectangle.intersection area ⟨fb.position, fb.size⟩).size.height
        (Rectangle.intersection area ⟨fb.position, fb.size⟩).top_left.y fb.buf
        (colors.drop (((Rectangle.intersection area ⟨fb.position, fb.size⟩).top_left.y
          - area.top_left.y).toNat * area.size.width))
        (by omega) (by omega) hwf
    have hper : ((Rectangle.intersection area ⟨fb.position, fb.size⟩).top_left.x
          - area.top_left.x).toNat
        + (Rectangle.intersection area ⟨fb.position, fb.size⟩).size.width
        + ((area.size.width : Int)
          - (((Rectangle.intersection area ⟨fb.position, fb.size⟩).top_left.x
              - area.top_left.x)
            + ((Rectangle.intersection area ⟨fb.position, fb.size⟩).size.width
              : Int))).toNat
        = area.size.width := by omega
    refine ⟨{ fb with buf := b }, ?_, rfl, rfl, rfl, hblen, ?_⟩
    · simp only [WidgetFramebuf.fill_contiguous, WidgetFramebuf.bounding_box, hzs,
        Bool.false_eq_true, if_false, hbeq]
      rw [List.drop_drop]
      have hfinal : ((Rectangle.intersection area ⟨fb.position, fb.size⟩).top_left.y
            - area.top_left.y).toNat * area.size.width
          + (Rectangle.intersection area ⟨fb.position, fb.size⟩).size.height
            * (((Rectangle.intersection area ⟨fb.position, fb.size⟩).top_left.x
                - area.top_left.x).toNat
              + (Rectangle.intersection area ⟨fb.position, fb.size⟩).size.width
              + ((area.size.width : Int)
                - (((Rectangle.intersection area ⟨fb.position, fb.size⟩).top_left.x
                    - area.top_left.x)
                  + ((Rectangle.intersection area ⟨fb.position, fb.size⟩).size.width
                    : Int))).toNat)
          = consumedSpec fb area := by
        simp only [consumedSpec, WidgetFramebuf.bounding_box, hzs,
          Bool.false_eq_true, if_false]
        rw [hper]
        ring
      rw [hfinal]
    · intro j hj
      apply hbframe
      intro r hr t ht hteq
      obtain ⟨hjlt, hjmod, hjdiv⟩ := WidgetFramebuf.idx_decomp
        fb.size.width fb.size.height
        ((Rectangle.intersection area ⟨fb.position, fb.size⟩).top_left.y
          - fb.position.y)
        ((Rectangle.intersection area ⟨fb.position, fb.size⟩).top_left.x
          - fb.position.x)
        r t j (by omega) (by omega) (by omega) (by omega) hteq
      have hpt : fb.pointOfIdx j
          = ⟨(Rectangle.intersection area ⟨fb.position, fb.size⟩).top_left.x + t,
            (Rectangle.intersection area ⟨fb.position, fb.size⟩).top_left.y + r⟩ := by
        unfold WidgetFramebuf.pointOfIdx
        rw [hjmod, hjdiv]
        congr 1
        · push_cast
          omega
        · push_cast
          omega
      have hmem : (Rectangle.intersection area ⟨fb.position, fb.size⟩).containsPoint
          (fb.pointOfIdx j) := by
        rw [hpt]
        unfold Rectangle.containsPoint
        dsimp only
        refine ⟨by omega, by omega, by omega, by omega⟩
      have hseq : (colors.length : Int) ≤ seqIndex area (fb.pointOfIdx j) := by
        by_contra hcon
        push_neg at hcon
        apply hj
        refine ⟨hjlt, ?_, hcon⟩
        simpa only [WidgetFramebuf.bounding_box] using hmem
      rw [hpt] at hseq
      unfold seqIndex at hseq
      simp only at hseq
      rw [List.length_drop, hper]
      have hexp : ((Rectangle.intersection area ⟨fb.position, fb.size⟩).top_left.y
            + (r : Int) - area.top_left.y) * (area.size.width : Int)
          = ((Rectangle.intersection area ⟨fb.position, fb.size⟩).top_left.y
            - area.top_left.y) * area.size.width + (r : Int) * area.size.width := by
        ring
      rw [hexp] at hseq
      have hNat : colors.length
          ≤ ((Rectangle.intersection area ⟨fb.position, fb.size⟩).top_left.y
              - area.top_left.y).toNat * area.size.width
            + r * area.size.width
            + (((Rectangle.intersection area ⟨fb.position, fb.size⟩).top_left.x
              - area.top_left.x).toNat + t) := by
        have hcast : ((((Rectangle.intersection area ⟨fb.position, fb.size⟩).top_left.y
              - area.top_left.y).toNat * area.size.width
            + r * area.size.width
            + (((Rectangle.intersection area ⟨fb.position, fb.size⟩).top_left.x
              - area.top_left.x).toNat + t) : Nat) : Int)
            = ((Rectangle.intersection area ⟨fb.position, fb.size⟩).top_left.y
                - area.top_left.y) * area.size.width + (r : Int) * area.size.width
              + ((Rectangle.intersection area ⟨fb.position, fb.size⟩).top_left.x
                + t - area.top_left.x) := by
          push_cast
          rw [Int.toNat_of_nonneg (by omega), Int.toNat_of_nonneg (by omega)]
          ring
        rw [← hcast] at hseq
        exact_mod_cast hseq
      generalize ((Rectangle.intersection area ⟨fb.position, fb.size⟩).top_left.y
        - area.top_left.y).toNat * area.size.width = A at hNat ⊢
      generalize r * area.size.width = B at hNat ⊢
      omega

end Kolibri

namespace Kolibri.WidgetFramebuf

/-- The inner x-loop of `fill_solid` succeeds when the row lies inside the buffer and
changes no cell outside the written span. -/
theorem fillSolidRowGo_spec {C : Type} (w : Nat) (py px y : Int) (H : Nat)
    (color : C) (hy0 : 0 ≤ y - py) (hyH : y - py < (H : Int)) :
    ∀ (k : Nat) (x : Int) (buf : List C),
      0 ≤ x - px → (x - px) + k ≤ (w : Int) → w * H ≤ buf.length →
      ∃ b, fillSolidRowGo w py px y color buf x k = some b ∧
        b.length = buf.length ∧
        ∀ j : Nat, (∀ t : Nat, t < k → (j : Int) ≠ (y - py) * w + (x - px) + t) →
          b[j]? = buf[j]? := by
  intro k
  induction k with
  | zero =>
    intro x buf hx0 hxk hlen
    exact ⟨buf, rfl, rfl, fun j _ => rfl⟩
  | succ k ih =>
    intro x buf hx0 hxk hlen
    have hw0 : (0 : Int) ≤ (w : Int) := Int.ofNat_nonneg w
    have hxk1 : x - px + (k : Int) + 1 ≤ (w : Int) := by push_cast at hxk; linarith
    have hA0 : 0 ≤ (y - py) * (w : Int) := mul_nonneg hy0 hw0
    have hAw : (y - py) * (w : Int) + w ≤ (H : Int) * w := by
      have h1 : (y - py + 1) * (w : Int) ≤ (H : Int) * w :=
        mul_le_mul_of_nonneg_right (by omega) hw0
      have h2 : (y - py + 1) * (w : Int) = (y - py) * w + w := by ring
      linarith
    have hcomm : (H : Int) * w = ((w * H : Nat) : Int) := by push_cast; ring
    have hlen2 : ((w * H : Nat) : Int) ≤ (buf.length : Int) := by exact_mod_cast hlen
    have hpos0 : 0 ≤ (y - py) * (w : Int) + (x - px) := by linarith
    have hposlt : (y - py) * (w : Int) + (x - px) < (buf.length : Int) := by
      have hk0 : (0 : Int) ≤ (k : Int) := Int.ofNat_nonneg k
      linarith
    have hset : setAt buf ((y - py) * (w : Int) + (x - px)) color
        = some (buf.set ((y - py) * (w : Int) + (x - px)).toNat color) := by
      unfold setAt
      rw [if_pos ⟨hpos0, hposlt⟩]
    obtain ⟨b, hb, hblen, hbframe⟩ := ih (x + 1)
      (buf.set ((y - py) * (w : Int) + (x - px)).toNat color)
      (by omega) (by omega) (by rw [List.length_set]; exact hlen)
    refine ⟨b, ?_, ?_, ?_⟩
    · simp only [fillSolidRowGo, hset]
      exact hb
    · rw [hblen, List.length_set]
    · intro j hj
      have hstep : b[j]?
          = (buf.set ((y - py) * (w : Int) + (x - px)).toNat color)[j]? := by
        apply hbframe
        intro t ht
        have := hj (t + 1) (by omega)
        intro he
        apply this
        rw [he]
        push_cast
        ring
      have hne : ((y - py) * (w : Int) + (x - px)).toNat ≠ j := by
        intro he
        apply hj 0 (by omega)
        rw [← he, Int.toNat_of_nonneg hpos0]
        simp
      rw [hstep, List.getElem?_set_ne hne]

/-- The row loop of `fill_solid` succeeds whenever the intersected rows lie inside
the buffer and changes no cell outside the written spans. -/
theorem fillSolidRowsGo_spec {C : Type} (w : Nat) (py px daX : Int) (daW : Nat)
    (H : Nat) (color : C) (hx0 : 0 ≤ daX - px) (hxw : (daX - px) + daW ≤ (w : Int)) :
    ∀ (rows : Nat) (y : Int) (buf : List C),
      0 ≤ y - py → (y - py) + rows ≤ (H : Int) → w * H ≤ buf.length →
      ∃ b, fillSolidRowsGo w py px daX daW color buf y rows = some b ∧
        b.length = buf.length ∧
        ∀ j : Nat,
          (∀ r : Nat, r < rows → ∀ t : Nat, t < daW →
            (j : Int) ≠ ((y - py) + r) * w + (daX - px) + t) →
          b[j]? = buf[j]? := by
  intro rows
  induction rows with
  | zero =>
    intro y buf hy0 hyr hlen
    exact ⟨buf, rfl, rfl, fun j _ => rfl⟩
  | succ n ih =>
    intro y buf hy0 hyr hlen
    have hyH : y - py < (H : Int) := by
      have : ((n : Int) + 1) = ((n + 1 : Nat) : Int) := by push_cast; ring
      omega
    obtain ⟨b1, hb1, hb1len, hb1frame⟩ :=
      fillSolidRowGo_spec w py px y H color hy0 hyH daW daX buf hx0 hxw hlen
    obtain ⟨b, hb, hblen, hbframe⟩ := ih (y + 1) b1
      (by omega) (by push_cast at hyr ⊢; linarith) (by rw [hb1len]; exact hlen)
    refine ⟨b, ?_, by rw [hblen, hb1len], ?_⟩
    · simp only [fillSolidRowsGo, hb1]
      exact hb
    · intro j hj
      have h2 : b[j]? = b1[j]? := by
        apply hbframe
        intro r hr t ht he
        apply hj (r + 1) (by omega) t ht
        rw [he]
        push_cast
        ring
      have h1 : b1[j]? = buf[j]? := by
        apply hb1frame
        intro t ht he
        apply hj 0 (by omega) t ht
        rw [he]
        push_cast
        ring
      rw [h2, h1]

end Kolibri.WidgetFramebuf

namespace Kolibri

/-- Master theorem for `fill_solid` on a buffer whose pixel count fits its storage:
the call always succeeds and leaves unchanged every backing cell that does not
correspond to a point of the intersection of the requested area with the bounding
box. -/
theorem fill_solid_spec {C : Type} (fb : WidgetFramebuf C) (area : Rectangle)
    (color : C) (hwf : fb.size.width * fb.size.height ≤ fb.buf.length) :
    ∃ fb2, fb.fill_solid area color = some fb2 ∧
      fb2.size = fb.size ∧ fb2.position = fb.position ∧ fb2.len = fb.len ∧
      fb2.buf.length = fb.buf.length ∧
      ∀ j : Nat,
        ¬ (j < fb.size.width * fb.size.height ∧
            (area.intersection fb.bounding_box).containsPoint (fb.pointOfIdx j)) →
        fb2.buf[j]? = fb.buf[j]? := by
  rcases inter_spec area fb.bounding_box with hz | hpos
  · simp only [WidgetFramebuf.bounding_box] at hz
    refine ⟨fb, ?_, rfl, rfl, rfl, rfl, fun j _ => rfl⟩
    simp only [WidgetFramebuf.fill_solid, WidgetFramebuf.bounding_box, hz]
    simp [Rectangle.zero, WidgetFramebuf.fillSolidRowsGo]
  · simp only [WidgetFramebuf.bounding_box] at hpos
    obtain ⟨hw1, hh1, hax, hbx, haxw, hbxw, hay, hby, hayh, hbyh⟩ := hpos
    obtain ⟨b, hbeq, hblen, hbframe⟩ :=
      WidgetFramebuf.fillSolidRowsGo_spec fb.size.width fb.position.y fb.position.x
        (Rectangle.intersection area ⟨fb.position, fb.size⟩).top_left.x
        (Rectangle.intersection area ⟨fb.position, fb.size⟩).size.width
        fb.size.height color (by omega) (by omega)
        (Rectangle.intersection area ⟨fb.position, fb.size⟩).size.height
        (Rectangle.intersection area ⟨fb.position, fb.size⟩).top_left.y fb.buf
        (by omega) (by omega) hwf
    refine ⟨{ fb with buf := b }, ?_, rfl, rfl, rfl, hblen, ?_⟩
    · simp only [WidgetFramebuf.fill_solid, WidgetFramebuf.bounding_box, hbeq]
    · intro j hj
      apply hbframe
      intro r hr t ht hteq
      obtain ⟨hjlt, hjmod, hjdiv⟩ := WidgetFramebuf.idx_decomp
        fb.size.width fb.size.height
        ((Rectangle.intersection area ⟨fb.position, fb.size⟩).top_left.y
          - fb.position.y)
        ((Rectangle.intersection area ⟨fb.position, fb.size⟩).top_left.x
          - fb.position.x)
        r t j (by omega) (by omega) (by omega) (by omega) hteq
      have hpt : fb.pointOfIdx j
          = ⟨(Rectangle.intersection area ⟨fb.position, fb.size⟩).top_left.x + t,
            (Rectangle.intersection area ⟨fb.position, fb.size⟩).top_left.y + r⟩ := by
        unfold WidgetFramebuf.pointOfIdx
        rw [hjmod, hjdiv]
        congr 1
        · push_cast
          omega
        · push_cast
          omega
      apply hj
      refine ⟨hjlt, ?_⟩
      simp only [WidgetFramebuf.bounding_box]
      rw [hpt]
      unfold Rectangle.containsPoint
      dsimp only
      refine ⟨by omega, by omega, by omega, by omega⟩

/-- `draw_iter` on a buffer whose cached `len` fits its storage: the call always
succeeds and changes no backing cell at a linear index at or beyond `len`. -/
theorem draw_iter_spec {C : Type} :
    ∀ (pixels : List (Point × C)) (fb : WidgetFramebuf C),
      fb.len ≤ fb.buf.length →
      ∃ fb2, fb.draw_iter pixels = some fb2 ∧
        fb2.size = fb.size ∧ fb2.position = fb.position ∧ fb2.len = fb.len ∧
        fb2.buf.length = fb.buf.length ∧
        ∀ j : Nat, fb.len ≤ j → fb2.buf[j]? = fb.buf[j]? := by
  intro pixels
  induction pixels with
  | nil =>
    intro fb hwf
    exact ⟨fb, rfl, rfl, rfl, rfl, rfl, fun j _ => rfl⟩
  | cons hd rest ih =>
    intro fb hwf
    obtain ⟨p, color⟩ := hd
    by_cases hskip : (p.y - fb.position.y) * (fb.size.width : Int)
        + (p.x - fb.position.x) < 0 ∨
        (fb.len : Int) ≤ (p.y - fb.position.y) * (fb.size.width : Int)
          + (p.x - fb.position.x)
    · obtain ⟨fb2, heq, hs, hp, hl, hlen, hframe⟩ := ih fb hwf
      refine ⟨fb2, ?_, hs, hp, hl, hlen, hframe⟩
      simp only [WidgetFramebuf.draw_iter]
      rw [if_pos hskip]
      exact heq
    · push_neg at hskip
      obtain ⟨hge, hlt⟩ := hskip
      have hltlen : (p.y - fb.position.y) * (fb.size.width : Int)
          + (p.x - fb.position.x) < (fb.buf.length : Int) := by
        have : (fb.len : Int) ≤ (fb.buf.length : Int) := by exact_mod_cast hwf
        omega
      have hset : WidgetFramebuf.setAt fb.buf
          ((p.y - fb.position.y) * (fb.size.width : Int) + (p.x - fb.position.x))
          color
          = some (fb.buf.set ((p.y - fb.position.y) * (fb.size.width : Int)
            + (p.x - fb.position.x)).toNat color) := by
        unfold WidgetFramebuf.setAt
        rw [if_pos ⟨hge, hltlen⟩]
      obtain ⟨fb2, heq, hs, hp, hl, hlen, hframe⟩ := ih
        { fb with buf := fb.buf.set ((p.y - fb.position.y) * (fb.size.width : Int)
            + (p.x - fb.position.x)).toNat color }
        (by simpa using hwf)
      refine ⟨fb2, ?_, hs, hp, hl, by simpa [List.length_set] using hlen, ?_⟩
      · simp only [WidgetFramebuf.draw_iter]
        rw [if_neg (by push_neg; exact ⟨hge, hlt⟩), hset]
        exact heq
      · intro j hj
        have h2 := hframe j (by simpa using hj)
        rw [h2]
        have hne : ((p.y - fb.position.y) * (fb.size.width : Int)
            + (p.x - fb.position.x)).toNat ≠ j := by
          intro he
          have : ((p.y - fb.position.y) * (fb.size.width : Int)
              + (p.x - fb.position.x)).toNat < fb.len := by omega
          omega
        exact List.getElem?_set_ne hne

end Kolibri

namespace Kolibri

/-- Claim C1 (counterexample): on a 3-by-3 buffer at the origin (which passed
construction), filling the rectangle at (0,0) of size 3-by-5 from a source of
exactly `3 * 5 = 15` items consumes only 9 items, although the intersection with the
bounding box is nonempty and the source is not shorter than
`rectangle.width * rectangle.height`: the claim's "exactly width * height items are
consumed" fails because rows below the intersection are never drained. -/
theorem C1_counterexample :
    (WidgetFramebuf.try_new (List.replicate 9 false) ⟨3, 3⟩ ⟨0, 0⟩
      = some (⟨List.replicate 9 false, ⟨3, 3⟩, ⟨0, 0⟩, 9⟩ : WidgetFramebuf Bool)) ∧
    ((⟨⟨0, 0⟩, ⟨3, 5⟩⟩ : Rectangle).intersection
        (⟨List.replicate 9 false, ⟨3, 3⟩, ⟨0, 0⟩, 9⟩
          : WidgetFramebuf Bool).bounding_box).is_zero_sized = false ∧
    (3 * 5 : Nat) = 15 ∧
    (List.replicate 15 true).length = 15 ∧
    (WidgetFramebuf.fill_contiguous
        (⟨List.replicate 9 false, ⟨3, 3⟩, ⟨0, 0⟩, 9⟩ : WidgetFramebuf Bool)
        ⟨⟨0, 0⟩, ⟨3, 5⟩⟩ (List.replicate 15 true)).map
        (fun r => (List.replicate 15 true).length - r.2.length)
      = some 9 ∧
    (9 : Nat) ≠ 15 := by
  decide

/-- Claim C1 (amended): for every constructed buffer at a non-negative position —
the regime in which the intersection's coordinates are non-negative, so the `as
usize` casts the source applies to its loop bounds are value-preserving and the
loops here coincide with the compiled ones — `fill_contiguous` succeeds and
consumes exactly `consumedSpec fb area` items: zero when the intersection with the
bounding box is empty, and otherwise `(top_skip + intersection.height) * area.width`
(rows above the intersection and all columns of intersected rows; rows below the
intersection are not consumed) — or fewer only when the source is shorter than that
count. The returned remainder is the source with exactly that prefix dropped. -/
theorem C1_amended_consumption (C : Type) (fb : WidgetFramebuf C) (area : Rectangle)
    (colors : List C) (h : fb.wf)
    (_hnn : 0 ≤ fb.position.x ∧ 0 ≤ fb.position.y) :
    ∃ fb2, fb.fill_contiguous area colors
        = some (fb2, colors.drop (consumedSpec fb area)) ∧
      ((area.intersection fb.bounding_box).is_zero_sized = true →
        consumedSpec fb area = 0) ∧
      colors.length - (colors.drop (consumedSpec fb area)).length
        = min (consumedSpec fb area) colors.length := by
  obtain ⟨h1, h2⟩ := h
  obtain ⟨fb2, heq, _⟩ := fill_contiguous_spec fb area colors (h1 ▸ h2)
  refine ⟨fb2, heq, ?_, ?_⟩
  · intro hz
    simp [consumedSpec, hz]
  · rw [List.length_drop]
    omega

theorem C1_amended_consumption_witness :
    fbW3.wf ∧
    (0 ≤ fbW3.position.x ∧ 0 ≤ fbW3.position.y) ∧
    (∃ fb2, fbW3.fill_contiguous areaW [true, true]
        = some (fb2, List.drop (consumedSpec fbW3 areaW) [true, true]) ∧
      ((areaW.intersection fbW3.bounding_box).is_zero_sized = true →
        consumedSpec fbW3 areaW = 0) ∧
      [true, true].length - (List.drop (consumedSpec fbW3 areaW) [true, true]).length
        = min (consumedSpec fbW3 areaW) [true, true].length) :=
  ⟨by decide, by decide,
    C1_amended_consumption Bool fbW3 areaW [true, true] (by decide) (by decide)⟩

/-- Claim C2: for every buffer that passed construction, each of the four draw
operations succeeds (no panic; the error type is uninhabited) and leaves every
backing-storage cell at a linear index at or beyond `width * height` unchanged —
i.e. writes are confined to `[0, width * height)` — no matter how far the requested
geometry extends outside the buffer. -/
theorem C2_draw_safety (C : Type) (fb : WidgetFramebuf C) (pixels : List (Point × C))
    (area : Rectangle) (colors : List C) (color : C) (h : fb.wf) :
    (∃ fb2, fb.draw_iter pixels = some fb2 ∧
      ∀ j, fb.size.width * fb.size.height ≤ j → fb2.buf[j]? = fb.buf[j]?) ∧
    (∃ fb2 rest, fb.fill_contiguous area colors = some (fb2, rest) ∧
      ∀ j, fb.size.width * fb.size.height ≤ j → fb2.buf[j]? = fb.buf[j]?) ∧
    (∃ fb2, fb.fill_solid area color = some fb2 ∧
      ∀ j, fb.size.width * fb.size.height ≤ j → fb2.buf[j]? = fb.buf[j]?) ∧
    (∃ fb2, fb.clear color = some fb2 ∧
      ∀ j, fb.size.width * fb.size.height ≤ j → fb2.buf[j]? = fb.buf[j]?) := by
  obtain ⟨h1, h2⟩ := h
  have hwf : fb.size.width * fb.size.height ≤ fb.buf.length := h1 ▸ h2
  refine ⟨?_, ?_, ?_, ?_⟩
  · obtain ⟨fb2, heq, _, _, _, _, hframe⟩ := draw_iter_spec pixels fb h2
    exact ⟨fb2, heq, fun j hj => hframe j (by omega)⟩
  · obtain ⟨fb2, heq, _, _, _, _, hframe⟩ := fill_contiguous_spec fb area colors hwf
    refine ⟨fb2, _, heq, fun j hj => hframe j ?_⟩
    rintro ⟨hjlt, -, -⟩
    omega
  · obtain ⟨fb2, heq, _, _, _, _, hframe⟩ := fill_solid_spec fb area color hwf
    refine ⟨fb2, heq, fun j hj => hframe j ?_⟩
    rintro ⟨hjlt, -⟩
    omega
  · refine ⟨⟨List.replicate (fb.size.width * fb.size.height) color
      ++ fb.buf.drop (fb.size.width * fb.size.height), fb.size, fb.position, fb.len⟩,
      ?_, ?_⟩
    · unfold WidgetFramebuf.clear
      rw [if_pos hwf]
    · intro j hj
      show (List.replicate (fb.size.width * fb.size.height) color
        ++ fb.buf.drop (fb.size.width * fb.size.height))[j]? = fb.buf[j]?
      rw [List.getElem?_append_right (by simpa using hj), List.length_replicate,
        List.getElem?_drop]
      congr 1
      omega

theorem C2_draw_safety_witness :
    fbW3.wf ∧
    ((∃ fb2, fbW3.draw_iter [(⟨1, 1⟩, true)] = some fb2 ∧
      ∀ j, fbW3.size.width * fbW3.size.height ≤ j → fb2.buf[j]? = fbW3.buf[j]?) ∧
    (∃ fb2 rest, fbW3.fill_contiguous areaW [true, true] = some (fb2, rest) ∧
      ∀ j, fbW3.size.width * fbW3.size.height ≤ j → fb2.buf[j]? = fbW3.buf[j]?) ∧
    (∃ fb2, fbW3.fill_solid areaW true = some fb2 ∧
      ∀ j, fbW3.size.width * fbW3.size.height ≤ j → fb2.buf[j]? = fbW3.buf[j]?) ∧
    (∃ fb2, fbW3.clear true = some fb2 ∧
      ∀ j, fbW3.size.width * fbW3.size.height ≤ j → fb2.buf[j]? = fbW3.buf[j]?)) :=
  ⟨by decide, C2_draw_safety Bool fbW3 [(⟨1, 1⟩, true)] areaW [true, true] true
    (by decide)⟩

/-- Claim C3: for every constructed buffer, `fill_solid` and `fill_contiguous`
modify only backing cells corresponding to points of
`intersection(requested_area, bounding_box)`: every cell outside that intersection
(including cells beyond `width * height`) holds the same value after the call. -/
theorem C3_fill_frame (C : Type) (fb : WidgetFramebuf C) (area : Rectangle)
    (colors : List C) (color : C) (h : fb.wf) :
    (∃ fb2, fb.fill_solid area color = some fb2 ∧
      ∀ j : Nat, ¬ (j < fb.size.width * fb.size.height ∧
          (area.intersection fb.bounding_box).containsPoint (fb.pointOfIdx j)) →
        fb2.buf[j]? = fb.buf[j]?) ∧
    (∃ fb2 rest, fb.fill_contiguous area colors = some (fb2, rest) ∧
      ∀ j : Nat, ¬ (j < fb.size.width * fb.size.height ∧
          (area.intersection fb.bounding_box).containsPoint (fb.pointOfIdx j)) →
        fb2.buf[j]? = fb.buf[j]?) := by
  obtain ⟨h1, h2⟩ := h
  have hwf : fb.size.width * fb.size.height ≤ fb.buf.length := h1 ▸ h2
  constructor
  · obtain ⟨fb2, heq, _, _, _, _, hframe⟩ := fill_solid_spec fb area color hwf
    exact ⟨fb2, heq, hframe⟩
  · obtain ⟨fb2, heq, _, _, _, _, hframe⟩ := fill_contiguous_spec fb area colors hwf
    refine ⟨fb2, _, heq, fun j hj => hframe j ?_⟩
    rintro ⟨hjlt, hmem, -⟩
    exact hj ⟨hjlt, hmem⟩

theorem C3_fill_frame_witness :
    fbW3.wf ∧
    ((∃ fb2, fbW3.fill_solid areaW true = some fb2 ∧
      ∀ j : Nat, ¬ (j < fbW3.size.width * fbW3.size.height ∧
          (areaW.intersection fbW3.bounding_box).containsPoint (fbW3.pointOfIdx j)) →
        fb2.buf[j]? = fbW3.buf[j]?) ∧
    (∃ fb2 rest, fbW3.fill_contiguous areaW [true, true] = some (fb2, rest) ∧
      ∀ j : Nat, ¬ (j < fbW3.size.width * fbW3.size.height ∧
          (areaW.intersection fbW3.bounding_box).containsPoint (fbW3.pointOfIdx j)) →
        fb2.buf[j]? = fbW3.buf[j]?)) :=
  ⟨by decide, C3_fill_frame Bool fbW3 areaW [true, true] true (by decide)⟩

/-- Claim C9: when the color source is exhausted before the intersection of the
requested rectangle with the bounding box has been fully filled (the source is
shorter than the sequence position of the intersection's bottom-right cell plus
one), `fill_contiguous` still returns success, and every target cell that was not
written — any cell outside the intersection, and any cell of the intersection whose
row-major sequence position is at or past the source's end — keeps its previous
value. -/
theorem C9_short_source (C : Type) (fb : WidgetFramebuf C) (area : Rectangle)
    (colors : List C) (h : fb.wf)
    (_hne : (area.intersection fb.bounding_box).is_zero_sized = false)
    (_hshort : (colors.length : Int)
        < seqIndex area
            ⟨(area.intersection fb.bounding_box).top_left.x
              + ((area.intersection fb.bounding_box).size.width : Int) - 1,
             (area.intersection fb.bounding_box).top_left.y
              + ((area.intersection fb.bounding_box).size.height : Int) - 1⟩ + 1) :
    ∃ fb2 rest, fb.fill_contiguous area colors = some (fb2, rest) ∧
      ∀ j : Nat,
        ¬ (j < fb.size.width * fb.size.height ∧
            (area.intersection fb.bounding_box).containsPoint (fb.pointOfIdx j) ∧
            seqIndex area (fb.pointOfIdx j) < (colors.length : Int)) →
        fb2.buf[j]? = fb.buf[j]? := by
  obtain ⟨h1, h2⟩ := h
  obtain ⟨fb2, heq, _, _, _, _, hframe⟩ :=
    fill_contiguous_spec fb area colors (h1 ▸ h2)
  exact ⟨fb2, _, heq, hframe⟩

theorem C9_short_source_witness :
    fbW3.wf ∧
    (areaW.intersection fbW3.bounding_box).is_zero_sized = false ∧
    ((([true, true] : List Bool).length : Int)
        < seqIndex areaW
            ⟨(areaW.intersection fbW3.bounding_box).top_left.x
              + ((areaW.intersection fbW3.bounding_box).size.width : Int) - 1,
             (areaW.intersection fbW3.bounding_box).top_left.y
              + ((areaW.intersection fbW3.bounding_box).size.height : Int) - 1⟩ + 1) ∧
    (∃ fb2 rest, fbW3.fill_contiguous areaW [true, true] = some (fb2, rest) ∧
      ∀ j : Nat,
        ¬ (j < fbW3.size.width * fbW3.size.height ∧
            (areaW.intersection fbW3.bounding_box).containsPoint (fbW3.pointOfIdx j) ∧
            seqIndex areaW (fbW3.pointOfIdx j) < (([true, true] : List Bool).length : Int)) →
        fb2.buf[j]? = fbW3.buf[j]?) :=
  ⟨by decide, by decide, by decide,
    C9_short_source Bool fbW3 areaW [true, true] (by decide) (by decide) (by decide)⟩

end Kolibri
